import Mathlib

/-!
Shallow embedding of the retrieval core of `src/app.py` (umaer-backend):
text tokenization, chunk segmentation, term-overlap scoring, ranking and
snippet truncation.  Python strings are modelled as `List Char`, the floats
produced by the scoring division as `ℚ`, and the Python `int` argument `k`
of `search_best_chunks` as `ℤ` (so that Python's slicing semantics for
negative `k` are kept).  Filesystem and HTTP concerns (PDF extraction,
session storage, the Flask endpoints) are outside the embedded core: the
index that `build_index_for_session` would produce is passed to
`search_best_chunks` directly.
-/

/-- Character class of the regex `_WORD = [A-Za-zÁÉÍÓÚÜÑáéíóúüñ0-9]+`
in `src/app.py`. -/
def isWordChar (c : Char) : Bool :=
  (decide ('A' ≤ c) && decide (c ≤ 'Z')) ||
  (decide ('a' ≤ c) && decide (c ≤ 'z')) ||
  (decide ('0' ≤ c) && decide (c ≤ '9')) ||
  ['Á', 'É', 'Í', 'Ó', 'Ú', 'Ü', 'Ñ', 'á', 'é', 'í', 'ó', 'ú', 'ü', 'ñ'].contains c

/-- The uppercase/lowercase pairs of the `_WORD` character class: the ASCII
letters and the accented letters of the regex in `src/app.py`. -/
def casePairs : List (Char × Char) :=
  [('A', 'a'), ('B', 'b'), ('C', 'c'), ('D', 'd'), ('E', 'e'), ('F', 'f'),
   ('G', 'g'), ('H', 'h'), ('I', 'i'), ('J', 'j'), ('K', 'k'), ('L', 'l'),
   ('M', 'm'), ('N', 'n'), ('O', 'o'), ('P', 'p'), ('Q', 'q'), ('R', 'r'),
   ('S', 's'), ('T', 't'), ('U', 'u'), ('V', 'v'), ('W', 'w'), ('X', 'x'),
   ('Y', 'y'), ('Z', 'z'), ('Á', 'á'), ('É', 'é'), ('Í', 'í'), ('Ó', 'ó'),
   ('Ú', 'ú'), ('Ü', 'ü'), ('Ñ', 'ñ')]

/-- Python `str.lower()` restricted to the characters the `_WORD` class can
match: the uppercase ASCII letters and the accented uppercase letters map to
their lowercase forms, every other character of the class (lowercase letters,
digits, accented lowercase) is already lowercase and is returned unchanged. -/
def toLowerCh (c : Char) : Char :=
  ((casePairs.find? (fun p => p.1 == c)).map Prod.snd).getD c

/-- Uppercasing map on the `_WORD` character class, the inverse direction of
`toLowerCh`; used only to state case-insensitivity of tokenization. -/
def toUpperCh (c : Char) : Char :=
  ((casePairs.find? (fun p => p.2 == c)).map Prod.fst).getD c

/-- Maximal runs of `_WORD` characters, as produced by `_WORD.findall`;
`acc` holds the characters of the current run in reverse order. -/
def tokenizeAux : List Char → List Char → List (List Char)
  | [], acc => if acc = [] then [] else [acc.reverse]
  | c :: rest, acc =>
    if isWordChar c then tokenizeAux rest (c :: acc)
    else if acc = [] then tokenizeAux rest []
    else acc.reverse :: tokenizeAux rest []

/-- `tokenize` from `src/app.py`: `[w.lower() for w in _WORD.findall(s or "")]`. -/
def tokenize (s : List Char) : List (List Char) :=
  (tokenizeAux s []).map (fun t => t.map toLowerCh)

/-- `score_chunk` from `src/app.py`: `0.0` when the chunk has no terms, and
otherwise `len(query_terms & terms) / max(1, len(query_terms))` where `terms`
is the set of the chunk's tokens. -/
def score_chunk (query_terms : Finset (List Char)) (chunk : List Char) : ℚ :=
  let terms : Finset (List Char) := (tokenize chunk).toFinset
  if terms = ∅ then 0
  else ((query_terms ∩ terms).card : ℚ) / ((max 1 query_terms.card : ℕ) : ℚ)

/-- Python slicing `l[:k]` for an arbitrary integer `k`: for `k ≥ 0` the first
`k` elements, for `k < 0` everything except the last `|k|` elements (empty when
`|k| ≥ len(l)`). -/
def pySliceTo {α : Type} (l : List α) (k : ℤ) : List α :=
  if 0 ≤ k then l.take k.toNat else l.take (l.length - (-k).toNat)

/-- The `scored` list that the loop in `search_best_chunks` accumulates, in
original corpus (index) order: one `(score, filename, chunk)` entry per unit
whose score is positive. -/
def scored_units (idx : List (String × List Char)) (query : List Char) :
    List (ℚ × String × List Char) :=
  idx.filterMap (fun fc =>
    let s := score_chunk (tokenize query).toFinset fc.2
    if 0 < s then some (s, fc.1, fc.2) else none)

/-- The scored, sorted result list that `search_best_chunks` builds before its
final `scored[:k]` slice: return `[]` on an empty index, return `[]` when the
query has no terms, and otherwise sort the positive-score units by score
descending with Python's stable `list.sort(key=..., reverse=True)`.
Python's stable sort is modelled by the stable `List.insertionSort` under the
relation "score at least as large": an element is placed before exactly those
later-ranked elements whose score is smaller or equal, which reproduces the
unique score-descending order that keeps equal-score elements in input
order (the stability is proved below: every equal-score class of the output
equals the corresponding class of `scored_units`). -/
def rank_all (idx : List (String × List Char)) (query : List Char) :
    List (ℚ × String × List Char) :=
  if idx = [] then []
  else if (tokenize query).toFinset = ∅ then []
  else (scored_units idx query).insertionSort (fun a b => b.1 ≤ a.1)

/-- `search_best_chunks` from `src/app.py` (default `k=4`), with the session
index passed in place of the session directory (index construction is
filesystem I/O performed by `build_index_for_session`). -/
def search_best_chunks (idx : List (String × List Char)) (query : List Char)
    (k : ℤ := 4) : List (ℚ × String × List Char) :=
  pySliceTo (rank_all idx query) k

/-- Python `str.strip()`: whitespace removed from both ends. -/
def pyStrip (s : List Char) : List Char :=
  ((s.dropWhile Char.isWhitespace).reverse.dropWhile Char.isWhitespace).reverse

/-- Python slice `t[a:b]` for `0 ≤ a ≤ b` (clamped at the length). -/
def sliceL (t : List Char) (a b : Nat) : List Char :=
  (t.drop a).take (b - a)

/-- Scanning helper for Python `str.find` and `str.rsplit`: position (counted
from `i` at the list head) of the first occurrence of `target`, if any. -/
def findCharAux (target : Char) : List Char → Nat → Option Nat
  | [], _ => none
  | c :: rest, i => if c = target then some i else findCharAux target rest (i + 1)

/-- Python `text.find(".", lo, hi)`: index of the first `'.'` in `[lo, hi)`. -/
def findDot (t : List Char) (lo hi : Nat) : Option Nat :=
  findCharAux '.' ((t.drop lo).take (hi - lo)) lo

/-- One iteration of the `chunk_text` loop: the exclusive end of the chunk that
starts at `start` — a window of `size` characters, extended to include the next
`'.'` when one occurs within the 200-character lookahead and the window's right
edge falls strictly before the end of the text. -/
def chunkStep (t : List Char) (size start : Nat) : Nat :=
  let e := min t.length (start + size)
  if e < t.length then
    match findDot t e (min t.length (e + 200)) with
    | some p => p + 1
    | none => e
  else e

/-- The `(start, end)` windows produced by the `chunk_text` while-loop, with
explicit fuel bounding the number of loop iterations; `none` models the Python
loop still running after `fuel` iterations.  The next start is
`max(end - overlap, end)` exactly as in the source. -/
def chunkBoundsO (t : List Char) (size overlap : Nat) : Nat → Nat → Option (List (Nat × Nat))
  | fuel, start =>
    if t.length ≤ start then some []
    else
      match fuel with
      | 0 => none
      | fuel + 1 =>
        let e := chunkStep t size start
        (chunkBoundsO t size overlap fuel (max (e - overlap) e)).map
          (fun bs => (start, e) :: bs)

/-- `chunk_text` from `src/app.py` (defaults `size=900`, `overlap=150`): strip
the text, run the window loop, and emit each window's text stripped.  Fuel
`t.length` always suffices when `1 ≤ size` (proved below); when the Python
loop would not terminate (`size = 0` with no period in the lookahead) the
model returns `[]` via `getD`, and such parameters are only ever reasoned
about through `chunkBoundsO` itself. -/
def chunk_text (text : List Char) (size : Nat := 900) (overlap : Nat := 150) :
    List (List Char) :=
  let t := pyStrip text
  ((chunkBoundsO t size overlap t.length 0).getD []).map
    (fun p => pyStrip (sliceL t p.1 p.2))

/-- Python `t.rsplit(" ", 1)[0]`: everything before the last space, or the
whole string when it contains no space. -/
def pyRsplitHead (t : List Char) : List Char :=
  match findCharAux ' ' t.reverse 0 with
  | some j => t.take (t.length - 1 - j)
  | none => t

/-- Snippet built in the no-LLM fallback branch of `chat` in `src/app.py`:
`chunk if len(chunk) <= 500 else chunk[:500].rsplit(" ", 1)[0] + "…"`. -/
def snippet_chat (chunk : List Char) : List Char :=
  if chunk.length ≤ 500 then chunk
  else pyRsplitHead (chunk.take 500) ++ ['…']

/-- Snippet built in `build_messages` in `src/app.py` (same shape, limit 700). -/
def snippet_ctx (chunk : List Char) : List Char :=
  if chunk.length ≤ 700 then chunk
  else pyRsplitHead (chunk.take 700) ++ ['…']

/-- Prefix test for character lists. -/
def isPref : List Char → List Char → Bool
  | [], _ => true
  | _ :: _, [] => false
  | a :: as, b :: bs => a == b && isPref as bs

/-- Character offset of the first occurrence of any nonempty term of `qs`
inside the scanned text. -/
def firstTermOffsetAux (qs : List (List Char)) : List Char → Nat → Option Nat
  | [], _ => none
  | c :: rest, i =>
    if qs.any (fun q => !q.isEmpty && isPref q (c :: rest)) then some i
    else firstTermOffsetAux qs rest (i + 1)

/-- Character offset of the first occurrence of any nonempty term of `qs`
in `t`. -/
def firstTermOffset (t : List Char) (qs : List (List Char)) : Option Nat :=
  firstTermOffsetAux qs t 0

/-- Follows the specification's words for the Snippet Extractor contract, for
comparison with the snippet the code actually builds: center a window of
`window` characters on the first occurrence of any query term, clamped to the
text bounds, with an ellipsis marker on each side exactly when the window does
not reach that end of the text; fall back to the leading `window` characters
when no term occurs. -/
def extract_spec_snippet (text : List Char) (qs : List (List Char)) (window : Nat) :
    List Char :=
  match firstTermOffset text qs with
  | none => text.take window
  | some off =>
    let lo0 := off - window / 2
    let lo := if text.length ≤ lo0 + window then text.length - window else lo0
    let hi := min text.length (lo + window)
    (if 0 < lo then ['…'] else []) ++ sliceL text lo hi ++
      (if hi < text.length then ['…'] else [])

/-! ### Helper lemmas about tokenization -/

theorem tokenizeAux_ne_nil : ∀ (s acc : List Char), [] ∉ tokenizeAux s acc := by
  intro s
  induction s with
  | nil =>
    intro acc
    simp only [tokenizeAux]
    split
    · simp
    · rename_i h
      simp only [List.mem_singleton]
      intro hc
      exact h (List.reverse_eq_nil_iff.mp hc.symm)
  | cons c rest ih =>
    intro acc
    simp only [tokenizeAux]
    split
    · exact ih _
    · split
      · exact ih _
      · rename_i _ h
        intro hmem
        rcases List.mem_cons.mp hmem with h1 | h2
        · exact h (List.reverse_eq_nil_iff.mp h1.symm)
        · exact ih _ h2

theorem tokenize_ne_nil {s t : List Char} (h : t ∈ tokenize s) : t ≠ [] := by
  rcases List.mem_map.mp h with ⟨u, hu, rfl⟩
  intro hc
  exact tokenizeAux_ne_nil s [] (List.map_eq_nil_iff.mp hc ▸ hu)

theorem toLowerCh_toUpperCh (c : Char) : toLowerCh (toUpperCh c) = toLowerCh c := by
  unfold toUpperCh
  cases hf : casePairs.find? (fun p => p.2 == c) with
  | none => rfl
  | some p =>
    have hmem : p ∈ casePairs := List.mem_of_find?_eq_some hf
    have hc : p.2 = c := by simpa using List.find?_some hf
    have hall : ∀ q ∈ casePairs, toLowerCh q.1 = toLowerCh q.2 := by decide
    simpa [hc] using hall p hmem

theorem isWordChar_toUpperCh (c : Char) : isWordChar (toUpperCh c) = isWordChar c := by
  unfold toUpperCh
  cases hf : casePairs.find? (fun p => p.2 == c) with
  | none => rfl
  | some p =>
    have hmem : p ∈ casePairs := List.mem_of_find?_eq_some hf
    have hc : p.2 = c := by simpa using List.find?_some hf
    have hall : ∀ q ∈ casePairs, isWordChar q.1 = isWordChar q.2 := by decide
    simpa [hc] using hall p hmem

theorem tokenizeAux_map_upper : ∀ (s acc : List Char),
    tokenizeAux (s.map toUpperCh) (acc.map toUpperCh)
      = (tokenizeAux s acc).map (List.map toUpperCh) := by
  intro s
  induction s with
  | nil =>
    intro acc
    simp only [List.map_nil, tokenizeAux]
    by_cases h : acc = []
    · subst h; simp
    · rw [if_neg (by simpa using h), if_neg h]
      simp
  | cons c rest ih =>
    intro acc
    simp only [List.map_cons, tokenizeAux, isWordChar_toUpperCh]
    by_cases hw : isWordChar c = true
    · rw [if_pos hw, if_pos hw]
      simpa using ih (c :: acc)
    · rw [if_neg hw, if_neg hw]
      by_cases ha : acc = []
      · subst ha
        simpa using ih []
      · rw [if_neg (by simpa using ha), if_neg ha]
        have h0 := ih []
        simp only [List.map_nil] at h0
        simp [h0]

theorem tokenize_map_upper (s : List Char) : tokenize (s.map toUpperCh) = tokenize s := by
  unfold tokenize
  have h := tokenizeAux_map_upper s []
  simp only [List.map_nil] at h
  rw [h, List.map_map]
  refine List.map_congr_left (fun t _ => ?_)
  simp only [Function.comp_apply, List.map_map]
  exact List.map_congr_left (fun c _ => toLowerCh_toUpperCh c)

/-! ### Helper lemmas about chunk segmentation -/

theorem findCharAux_bounds (ch : Char) :
    ∀ (l : List Char) (i p : Nat), findCharAux ch l i = some p → i ≤ p ∧ p < i + l.length := by
  intro l
  induction l with
  | nil => intro i p h; simp [findCharAux] at h
  | cons c rest ih =>
    intro i p h
    simp only [findCharAux] at h
    split at h
    · cases h
      simp
    · have := ih (i + 1) p h
      simp only [List.length_cons]
      omega

theorem chunkStep_le (t : List Char) (size start : Nat) :
    chunkStep t size start ≤ t.length := by
  simp only [chunkStep]
  split
  · split
    · rename_i p hp
      unfold findDot at hp
      have hb := findCharAux_bounds '.' _ _ _ hp
      have hl : ((t.drop (min t.length (start + size))).take
          (min t.length (min t.length (start + size) + 200) - min t.length (start + size))).length
          ≤ min t.length (min t.length (start + size) + 200) - min t.length (start + size) :=
        List.length_take_le _ _
      have h1 : min t.length (start + size) ≤ t.length := Nat.min_le_left _ _
      have h2 : min t.length (min t.length (start + size) + 200) ≤ t.length := Nat.min_le_left _ _
      omega
    · exact Nat.min_le_left _ _
  · exact Nat.min_le_left _ _

theorem chunkStep_ge (t : List Char) (size start : Nat) (h : start < t.length) :
    start ≤ chunkStep t size start := by
  have hm : start ≤ min t.length (start + size) := Nat.le_min.mpr ⟨by omega, by omega⟩
  simp only [chunkStep]
  split
  · split
    · rename_i p hp
      unfold findDot at hp
      have hb := findCharAux_bounds '.' _ _ _ hp
      omega
    · exact hm
  · exact hm

theorem chunkStep_lt (t : List Char) {size : Nat} (start : Nat) (hs : 1 ≤ size)
    (h : start < t.length) : start < chunkStep t size start := by
  have hm : start + 1 ≤ min t.length (start + size) := Nat.le_min.mpr ⟨by omega, by omega⟩
  simp only [chunkStep]
  split
  · split
    · rename_i p hp
      unfold findDot at hp
      have hb := findCharAux_bounds '.' _ _ _ hp
      omega
    · exact hm
  · exact hm

theorem chunkBoundsO_isSome (t : List Char) {size : Nat} (ov : Nat) (hs : 1 ≤ size) :
    ∀ (fuel start : Nat), t.length - start ≤ fuel →
      (chunkBoundsO t size ov fuel start).isSome = true := by
  intro fuel
  induction fuel with
  | zero =>
    intro start h
    have hle : t.length ≤ start := by omega
    simp [chunkBoundsO, hle]
  | succ fuel ih =>
    intro start h
    by_cases hle : t.length ≤ start
    · simp [chunkBoundsO, hle]
    · have h1 := chunkStep_lt t start hs (by omega)
      simp only [chunkBoundsO, if_neg hle]
      rw [Nat.max_eq_right (Nat.sub_le _ _)]
      rw [Option.isSome_map']
      exact ih (chunkStep t size start) (by omega)

theorem chunkBoundsO_join (t : List Char) (size ov : Nat) :
    ∀ (fuel start : Nat) (bs : List (Nat × Nat)),
      chunkBoundsO t size ov fuel start = some bs →
      (bs.map (fun p => sliceL t p.1 p.2)).flatten = t.drop start := by
  intro fuel
  induction fuel with
  | zero =>
    intro start bs h
    by_cases hle : t.length ≤ start
    · simp only [chunkBoundsO, if_pos hle] at h
      cases h
      simp [List.drop_eq_nil_of_le hle]
    · simp [chunkBoundsO, hle] at h
  | succ fuel ih =>
    intro start bs h
    by_cases hle : t.length ≤ start
    · simp only [chunkBoundsO, if_pos hle] at h
      cases h
      simp [List.drop_eq_nil_of_le hle]
    · simp only [chunkBoundsO, if_neg hle] at h
      rw [Nat.max_eq_right (Nat.sub_le _ _)] at h
      rcases Option.map_eq_some'.mp h with ⟨bs', hbs', rfl⟩
      have hj := ih _ _ hbs'
      have hge : start ≤ chunkStep t size start := chunkStep_ge t size start (by omega)
      simp only [List.map_cons, List.flatten_cons, hj]
      unfold sliceL
      have hd : t.drop (chunkStep t size start)
          = (t.drop start).drop (chunkStep t size start - start) := by
        rw [List.drop_drop]
        congr 1
        omega
      rw [hd, List.take_append_drop]

theorem chunkBoundsO_ov (t : List Char) (size o1 o2 : Nat) :
    ∀ (fuel start : Nat),
      chunkBoundsO t size o1 fuel start = chunkBoundsO t size o2 fuel start := by
  intro fuel
  induction fuel with
  | zero => intro start; by_cases h : t.length ≤ start <;> simp [chunkBoundsO, h]
  | succ fuel ih =>
    intro start
    by_cases h : t.length ≤ start
    · simp [chunkBoundsO, h]
    · simp only [chunkBoundsO, if_neg h]
      rw [Nat.max_eq_right (Nat.sub_le _ _), Nat.max_eq_right (Nat.sub_le _ _), ih]

theorem chunkBoundsO_chain (t : List Char) (size ov : Nat) :
    ∀ (fuel start : Nat) (bs : List (Nat × Nat)),
      chunkBoundsO t size ov fuel start = some bs →
      (∀ h ∈ bs.head?, h.1 = start) ∧ bs.Chain' (fun a b => b.1 = a.2) := by
  intro fuel
  induction fuel with
  | zero =>
    intro start bs h
    by_cases hle : t.length ≤ start
    · simp only [chunkBoundsO, if_pos hle] at h
      cases h
      simp
    · simp [chunkBoundsO, hle] at h
  | succ fuel ih =>
    intro start bs h
    by_cases hle : t.length ≤ start
    · simp only [chunkBoundsO, if_pos hle] at h
      cases h
      simp
    · simp only [chunkBoundsO, if_neg hle] at h
      rw [Nat.max_eq_right (Nat.sub_le _ _)] at h
      rcases Option.map_eq_some'.mp h with ⟨bs', hbs', rfl⟩
      obtain ⟨hhead, hchain⟩ := ih _ _ hbs'
      refine ⟨by simp, ?_⟩
      rw [List.chain'_cons']
      exact ⟨fun b hb => hhead b hb, hchain⟩

theorem pyStrip_length_le (s : List Char) : (pyStrip s).length ≤ s.length := by
  unfold pyStrip
  have h1 := (List.dropWhile_sublist (l := s) Char.isWhitespace).length_le
  have h2 := (List.dropWhile_sublist (l := (s.dropWhile Char.isWhitespace).reverse)
    Char.isWhitespace).length_le
  simp only [List.length_reverse] at *
  omega

/-! ### Helper lemmas about ranking and snippets -/

theorem rank_all_pairwise (idx : List (String × List Char)) (query : List Char) :
    (rank_all idx query).Pairwise (fun a b => b.1 ≤ a.1) := by
  unfold rank_all
  split
  · simp
  · split
    · simp
    · haveI : IsTotal (ℚ × String × List Char) (fun a b => b.1 ≤ a.1) :=
        ⟨fun a b => le_total b.1 a.1⟩
      haveI : IsTrans (ℚ × String × List Char) (fun a b => b.1 ≤ a.1) :=
        ⟨fun _ _ _ h1 h2 => le_trans h2 h1⟩
      exact List.sorted_insertionSort _ _

theorem search_best_chunks_pairwise (idx : List (String × List Char))
    (query : List Char) (k : ℤ) :
    (search_best_chunks idx query k).Pairwise (fun a b => b.1 ≤ a.1) := by
  have h := rank_all_pairwise idx query
  unfold search_best_chunks pySliceTo
  split <;> exact List.Pairwise.sublist (List.take_sublist _ _) h

theorem rank_all_empty_query {query : List Char} (h : tokenize query = [])
    (idx : List (String × List Char)) : rank_all idx query = [] := by
  unfold rank_all
  split
  · rfl
  · rw [h]
    simp

theorem score_chunk_empty_query (chunk : List Char) :
    score_chunk ∅ chunk = 0 := by
  simp only [score_chunk]
  split
  · rfl
  · simp

theorem scored_units_empty_query {query : List Char}
    (h : (tokenize query).toFinset = ∅) (idx : List (String × List Char)) :
    scored_units idx query = [] := by
  unfold scored_units
  rw [List.filterMap_eq_nil_iff]
  intro fc _
  rw [h]
  simp [score_chunk_empty_query]

theorem filter_orderedInsert_eq (x : ℚ × String × List Char) (s : ℚ) :
    ∀ l : List (ℚ × String × List Char),
      (List.orderedInsert (fun a b => b.1 ≤ a.1) x l).filter (fun r => decide (r.1 = s))
        = if x.1 = s then x :: l.filter (fun r => decide (r.1 = s))
          else l.filter (fun r => decide (r.1 = s)) := by
  intro l
  induction l with
  | nil =>
    by_cases hx : x.1 = s <;> simp [List.orderedInsert, List.filter_cons, hx]
  | cons y ys ih =>
    by_cases hr : y.1 ≤ x.1
    · simp only [List.orderedInsert, if_pos hr]
      by_cases hx : x.1 = s <;> simp [List.filter_cons, hx]
    · simp only [List.orderedInsert, if_neg hr]
      have hlt : x.1 < y.1 := lt_of_not_le hr
      by_cases hx : x.1 = s
      · have hy : ¬ y.1 = s := fun hy => absurd (hx ▸ hy ▸ hlt) (lt_irrefl _)
        simp [List.filter_cons, hx, hy, ih]
      · by_cases hy : y.1 = s <;> simp [List.filter_cons, hx, hy, ih]

theorem filter_insertionSort_eq (s : ℚ) :
    ∀ l : List (ℚ × String × List Char),
      (l.insertionSort (fun a b => b.1 ≤ a.1)).filter (fun r => decide (r.1 = s))
        = l.filter (fun r => decide (r.1 = s)) := by
  intro l
  induction l with
  | nil => rfl
  | cons x xs ih =>
    simp only [List.insertionSort, filter_orderedInsert_eq, ih]
    by_cases hx : x.1 = s <;> simp [List.filter_cons, hx]

theorem rank_all_stable (idx : List (String × List Char)) (query : List Char)
    (s : ℚ) :
    (rank_all idx query).filter (fun r => decide (r.1 = s))
      = (scored_units idx query).filter (fun r => decide (r.1 = s)) := by
  unfold rank_all
  split
  · rename_i h
    subst h
    rfl
  · split
    · rename_i _ h
      rw [scored_units_empty_query h]
    · exact filter_insertionSort_eq s _

theorem pyRsplitHead_eq_take (t : List Char) :
    ∃ m, m ≤ t.length ∧ pyRsplitHead t = t.take m := by
  unfold pyRsplitHead
  split
  · exact ⟨t.length - 1 - _, by omega, rfl⟩
  · exact ⟨t.length, le_rfl, (List.take_length t).symm⟩

/-! ### Claims -/

/-- Claim C1 is false on the code (counterexample): two units with equal score
but different text lengths are returned in original corpus order even when the
shorter one comes first — `scored.sort(key=lambda t: t[0], reverse=True)`
sorts by score alone, there is no longer-text tie-break. -/
theorem c1_counterexample :
    search_best_chunks [("a", "morfina".toList), ("a", "morfina morfina".toList)]
        "morfina".toList 4
      = [(1, "a", "morfina".toList), (1, "a", "morfina morfina".toList)]
    ∧ ("morfina".toList).length < ("morfina morfina".toList).length := by
  exact ⟨by with_unfolding_all decide, by decide⟩

/-- Claim C1 (amended): ranking orders the scored units by score descending
only, and ties are broken by original corpus order — the length of the unit
text plays no role.  Proved in full: (1) every search output has non-increasing
scores; (2) stability — for every corpus, query and score value, the equal-score
class of the ranked list is exactly the equal-score class of `scored_units`,
the positive-score units in original corpus order, so ties always keep corpus
order; together with sortedness this pins the entire ranking.  (3) A
distinguishing concrete tie: the longer unit, carried by the lexicographically
larger filename, precedes an equally scored shorter unit in the corpus and
stays first — ruling out both a shorter-first and a filename-lexicographic
tie-break, while `c1_counterexample` rules out the claimed longer-first one. -/
theorem c1_theorem :
    (∀ (idx : List (String × List Char)) (query : List Char) (k : ℤ),
        (search_best_chunks idx query k).Pairwise (fun a b => b.1 ≤ a.1))
    ∧ (∀ (idx : List (String × List Char)) (query : List Char) (s : ℚ),
        (rank_all idx query).filter (fun r => decide (r.1 = s))
          = (scored_units idx query).filter (fun r => decide (r.1 = s)))
    ∧ search_best_chunks [("b", "dosis dosis".toList), ("a", "dosis".toList)]
          "dosis".toList 4
        = [(1, "b", "dosis dosis".toList), (1, "a", "dosis".toList)]
    ∧ search_best_chunks [("d", "dosis".toList), ("d", "dosis dosis".toList)]
          "dosis".toList 4
        = [(1, "d", "dosis".toList), (1, "d", "dosis dosis".toList)] :=
  ⟨search_best_chunks_pairwise, rank_all_stable,
   by with_unfolding_all decide, by with_unfolding_all decide⟩

/-- Claim C2: for every query-term set and every unit whose text has at least
one term, the score is the number of distinct query terms present in the unit
divided by `max 1 (number of distinct query terms)`; on the unit
"El paciente recibió 5 mg de morfina cada 4 horas." and the query
"morfina dosis" the score is exactly 1/2 and the unit is returned. -/
theorem c2_theorem :
    (∀ (q : Finset (List Char)) (chunk : List Char), tokenize chunk ≠ [] →
        score_chunk q chunk
          = ((q ∩ (tokenize chunk).toFinset).card : ℚ) / ((max 1 q.card : ℕ) : ℚ))
    ∧ score_chunk (tokenize "morfina dosis".toList).toFinset
        "El paciente recibió 5 mg de morfina cada 4 horas.".toList = 1 / 2
    ∧ search_best_chunks
        [("doc.pdf", "El paciente recibió 5 mg de morfina cada 4 horas.".toList)]
        "morfina dosis".toList 4
      = [(1 / 2, "doc.pdf",
          "El paciente recibió 5 mg de morfina cada 4 horas.".toList)] := by
  refine ⟨?_, by with_unfolding_all decide, by with_unfolding_all decide⟩
  intro q chunk h
  unfold score_chunk
  rw [if_neg (fun hc => h ((List.toFinset_eq_empty_iff _).mp hc))]

/-- Witness for C2: the general score formula applied at a concrete query-term
set and a concrete unit with at least one term. -/
theorem c2_witness :
    tokenize "mg".toList ≠ []
    ∧ score_chunk {"mg".toList} "mg".toList
        = ((({"mg".toList} : Finset (List Char)) ∩ (tokenize "mg".toList).toFinset).card : ℚ)
          / ((max 1 ({"mg".toList} : Finset (List Char)).card : ℕ) : ℚ) :=
  ⟨by decide, c2_theorem.1 {"mg".toList} "mg".toList (by decide)⟩

/-- Claim C3 is false on the code (counterexample): tokenization keeps
single-character tokens — the digit "5" and the word "y" appear as terms. -/
theorem c3_counterexample :
    tokenize "y 5".toList = [['y'], ['5']] ∧ (['y'] : List Char).length < 2 := by
  exact ⟨by decide, by decide⟩

/-- Claim C3 (amended): the code has no minimum-length filter: every term
produced by tokenization is a nonempty maximal run of word characters, so terms
have length at least 1 (not 2), and single-character tokens such as "5" or "y"
do appear in the term sequence used for scoring. -/
theorem c3_theorem : ∀ (s t : List Char), t ∈ tokenize s → 1 ≤ t.length := by
  intro s t h
  have hne := tokenize_ne_nil h
  cases t with
  | nil => exact absurd rfl hne
  | cons a l => simp

/-- Witness for C3: the length bound applied to a concrete token of a concrete
input. -/
theorem c3_witness : 1 ≤ ("ab".toList : List Char).length :=
  c3_theorem ("ab".toList) ("ab".toList) (by decide)

/-- Claim C4 is false on the code (counterexample): no diacritic folding
happens — the accented and unaccented spellings of the same word tokenize to
different terms, and the score of the query terms of "recibio" against a unit
containing only "recibió" is 0, so one spelling does not match the other. -/
theorem c4_counterexample :
    tokenize "recibió".toList ≠ tokenize "recibio".toList
    ∧ score_chunk (tokenize "recibio".toList).toFinset "recibió".toList = 0 := by
  exact ⟨by decide, by with_unfolding_all decide⟩

/-- Claim C4 (amended): normalization folds case only (including the accented
uppercase letters of the word class): tokenization is invariant under
uppercasing the input, but combining diacritical marks are not stripped, so
accented and diacritic-free spellings of a word yield distinct terms and do
not compare equal. -/
theorem c4_theorem : ∀ s : List Char, tokenize (s.map toUpperCh) = tokenize s :=
  tokenize_map_upper

set_option maxRecDepth 100000 in
set_option maxHeartbeats 4000000 in
/-- Claim C5 is false on the code (counterexample): for a 502-character unit
ending in "morfina" and the query term "morfina" (first occurrence at offset
495), the snippet the code builds is the space-trimmed leading 500 characters
plus one trailing ellipsis — not a window centered on the first term
occurrence: it differs from the specified extraction, has no leading marker,
and cuts the matched term off (no complete "morfina", whose letter 'n' is
absent from the snippet). -/
theorem c5_counterexample :
    firstTermOffset (List.replicate 495 'a' ++ "morfina".toList) ["morfina".toList]
        = some 495
    ∧ snippet_chat (List.replicate 495 'a' ++ "morfina".toList)
        = List.replicate 495 'a' ++ "morfi".toList ++ ['…']
    ∧ snippet_chat (List.replicate 495 'a' ++ "morfina".toList)
        ≠ extract_spec_snippet (List.replicate 495 'a' ++ "morfina".toList)
            ["morfina".toList] 220
    ∧ 'n' ∈ extract_spec_snippet (List.replicate 495 'a' ++ "morfina".toList)
            ["morfina".toList] 220
    ∧ 'n' ∉ snippet_chat (List.replicate 495 'a' ++ "morfina".toList) :=
  ⟨by decide, by decide, by decide, by decide, by decide⟩

/-- Claim C5 (amended): the snippet is query-independent truncation, not a
centered window: the chat fallback returns the whole chunk when it has at most
500 characters, and otherwise the leading at-most-500 characters (the first
500, trimmed back to the last space) followed by one trailing ellipsis marker;
the LLM-context path in `build_messages` does the same with limit 700.  There
is never a leading marker and the query terms play no role. -/
theorem c5_theorem :
    (∀ chunk : List Char, ∃ m, m ≤ 500 ∧
        snippet_chat chunk
          = chunk.take m ++ (if chunk.length ≤ 500 then [] else ['…']))
    ∧ (∀ chunk : List Char, ∃ m, m ≤ 700 ∧
        snippet_ctx chunk
          = chunk.take m ++ (if chunk.length ≤ 700 then [] else ['…'])) := by
  constructor
  · intro chunk
    by_cases h : chunk.length ≤ 500
    · exact ⟨500, le_rfl, by simp [snippet_chat, h, List.take_of_length_le h]⟩
    · obtain ⟨m, hm, he⟩ := pyRsplitHead_eq_take (chunk.take 500)
      have hm500 : m ≤ 500 := le_trans hm (List.length_take_le _ _)
      refine ⟨m, hm500, ?_⟩
      simp only [snippet_chat, if_neg h, he, List.take_take, Nat.min_eq_left hm500]
  · intro chunk
    by_cases h : chunk.length ≤ 700
    · exact ⟨700, le_rfl, by simp [snippet_ctx, h, List.take_of_length_le h]⟩
    · obtain ⟨m, hm, he⟩ := pyRsplitHead_eq_take (chunk.take 700)
      have hm700 : m ≤ 700 := le_trans hm (List.length_take_le _ _)
      refine ⟨m, hm700, ?_⟩
      simp only [snippet_ctx, if_neg h, he, List.take_take, Nat.min_eq_left hm700]

/-- Claim C6 is false on the code as stated for arbitrary `target_size`
(counterexample): with `target_size = 0` and the text "ab" (no period in the
lookahead), the window end equals the window start and
`max(end - overlap, end)` makes no progress: the loop is still running after
`len(text) = 2` iterations, and indeed after 10. -/
theorem c6_counterexample :
    chunkBoundsO "ab".toList 0 150 ("ab".toList).length 0 = none
    ∧ chunkBoundsO "ab".toList 0 150 10 0 = none := ⟨by decide, by decide⟩

/-- Claim C6 (amended): for every text, every `target_size ≥ 1` and every
`overlap` — including `overlap ≥ target_size`, since the next start
`max(end - overlap, end)` is always the previous end — the `chunk_text` loop
finishes within `len(stripped text)` iterations, and hence within `len(text)`
iterations: the fuelled loop returns `some` with either fuel.  (For
`target_size = 0` the loop can run forever, as the counterexample shows.) -/
theorem c6_theorem (text : List Char) (size overlap : Nat) (hs : 1 ≤ size) :
    (chunkBoundsO (pyStrip text) size overlap (pyStrip text).length 0).isSome = true
    ∧ (chunkBoundsO (pyStrip text) size overlap text.length 0).isSome = true := by
  have hl := pyStrip_length_le text
  exact ⟨chunkBoundsO_isSome _ overlap hs _ 0 (by omega),
         chunkBoundsO_isSome _ overlap hs _ 0 (by omega)⟩

/-- Witness for C6: the termination bound applied at a concrete text and
concrete parameters. -/
theorem c6_witness :
    1 ≤ 1
    ∧ (chunkBoundsO (pyStrip "ab".toList) 1 150 (pyStrip "ab".toList).length 0).isSome
        = true :=
  ⟨le_rfl, (c6_theorem ("ab".toList) 1 150 le_rfl).1⟩

/-- Claim C7 is false on the code (counterexample): characters outside any
overlap region are dropped: the leading space of " a" disappears (whole-text
strip) and the inter-chunk space of "a b" segmented with `size = 1`
disappears (per-chunk strip); since consecutive chunks share no characters
(claim C10), concatenating the chunks is exactly the overlap-free
concatenation, and it does not reconstruct the original text. -/
theorem c7_counterexample :
    chunk_text " a".toList 900 150 = [['a']]
    ∧ [['a']].flatten ≠ " a".toList
    ∧ chunk_text "a b".toList 1 150 = [['a'], [], ['b']]
    ∧ [['a'], ([] : List Char), ['b']].flatten ≠ "a b".toList :=
  ⟨by decide, by decide, by decide, by decide⟩

/-- Claim C7 (amended): the windowing itself loses nothing: for
`target_size ≥ 1` the raw windows tile the stripped text, i.e. concatenating
the window contents before the per-chunk whitespace trim reconstructs
`text.strip()` exactly.  The emitted chunks are additionally stripped, so
whitespace at window boundaries (and at the ends of the text) is dropped and
exact reconstruction of the original text fails. -/
theorem c7_theorem (text : List Char) (size overlap : Nat) (hs : 1 ≤ size) :
    (((chunkBoundsO (pyStrip text) size overlap (pyStrip text).length 0).getD []).map
        (fun p => sliceL (pyStrip text) p.1 p.2)).flatten = pyStrip text := by
  obtain ⟨bs, hbs⟩ := Option.isSome_iff_exists.mp
    (chunkBoundsO_isSome (pyStrip text) overlap hs (pyStrip text).length 0 (by omega))
  rw [hbs]
  simpa using chunkBoundsO_join (pyStrip text) size overlap _ 0 bs hbs

/-- Witness for C7: the tiling equation applied at a concrete text and
concrete parameters. -/
theorem c7_witness :
    1 ≤ 900
    ∧ (((chunkBoundsO (pyStrip " a".toList) 900 150 (pyStrip " a".toList).length 0).getD
          []).map (fun p => sliceL (pyStrip " a".toList) p.1 p.2)).flatten
        = pyStrip " a".toList :=
  ⟨by decide, c7_theorem (" a".toList) 900 150 (by decide)⟩

/-- Claim C8: with a nonempty index, a query that normalizes to zero terms
(for example whitespace only) makes `search_best_chunks` return the empty
list; the code path is a plain early return — in the model a total function,
matching the code, which raises nothing on this path. -/
theorem c8_theorem (idx : List (String × List Char)) (query : List Char) (k : ℤ)
    (_hidx : idx ≠ []) (hq : tokenize query = []) :
    search_best_chunks idx query k = [] := by
  unfold search_best_chunks
  rw [rank_all_empty_query hq idx]
  unfold pySliceTo
  split <;> simp

/-- Witness for C8: the empty-query behaviour at a concrete nonempty corpus
and the whitespace-only query of the specification's Example 4. -/
theorem c8_witness :
    ([("a", "ab".toList)] : List (String × List Char)) ≠ []
    ∧ tokenize "   ".toList = []
    ∧ search_best_chunks [("a", "ab".toList)] "   ".toList 4 = [] :=
  ⟨by decide, by decide, c8_theorem _ _ 4 (by decide) (by decide)⟩

/-- Claim C9 is false on the code (counterexample): `k = -1` against two
scored results returns one result, not the empty list — `scored[:k]` with a
negative `k` is Python slicing, which drops the last `|k|` elements. -/
theorem c9_counterexample :
    (-1 : ℤ) ≤ 0
    ∧ search_best_chunks [("a", "morfina".toList), ("a", "morfina morfina".toList)]
          "morfina".toList (-1)
        = [(1, "a", "morfina".toList)] :=
  ⟨by decide, by with_unfolding_all decide⟩

/-- Claim C9 (amended): `k = 0` returns the empty list, but a negative `k`
follows Python slice semantics and returns all but the last `|k|` ranked
results — empty only when `|k|` is at least the number of results. -/
theorem c9_theorem :
    (∀ (idx : List (String × List Char)) (query : List Char),
        search_best_chunks idx query 0 = [])
    ∧ (∀ (idx : List (String × List Char)) (query : List Char) (k : ℤ), k < 0 →
        search_best_chunks idx query k
          = (rank_all idx query).take ((rank_all idx query).length - (-k).toNat)) := by
  constructor
  · intro idx query
    unfold search_best_chunks pySliceTo
    rw [if_pos le_rfl]
    simp
  · intro idx query k hk
    unfold search_best_chunks pySliceTo
    rw [if_neg (by omega)]

/-- Witness for C9: the negative-slice equation applied at a concrete corpus,
query and `k = -5`. -/
theorem c9_witness :
    (-5 : ℤ) < 0
    ∧ search_best_chunks [("a", "morfina".toList)] "morfina".toList (-5)
        = (rank_all [("a", "morfina".toList)] "morfina".toList).take
            ((rank_all [("a", "morfina".toList)] "morfina".toList).length
              - ((-(-5 : ℤ)).toNat)) :=
  ⟨by decide, c9_theorem.2 [("a", "morfina".toList)] "morfina".toList (-5) (by decide)⟩

/-- Claim C10: the overlap parameter has no effect on the output: for natural
`overlap`, `max (end - overlap) end = end`, so the next window always starts
exactly at the previous window's end — the window lists agree for any two
overlap values at every fuel and start, `chunk_text` returns identical chunk
lists, and consecutive windows share no characters (each starts where the
previous one ends). -/
theorem c10_theorem :
    (∀ (t : List Char) (size o1 o2 fuel start : Nat),
        chunkBoundsO t size o1 fuel start = chunkBoundsO t size o2 fuel start)
    ∧ (∀ (text : List Char) (size o1 o2 : Nat),
        chunk_text text size o1 = chunk_text text size o2)
    ∧ (∀ (t : List Char) (size ov fuel start : Nat) (bs : List (Nat × Nat)),
        chunkBoundsO t size ov fuel start = some bs →
        bs.Chain' (fun a b => b.1 = a.2)) := by
  refine ⟨fun t size o1 o2 fuel start => chunkBoundsO_ov t size o1 o2 fuel start, ?_, ?_⟩
  · intro text size o1 o2
    simp only [chunk_text]
    rw [chunkBoundsO_ov (pyStrip text) size o1 o2]
  · intro t size ov fuel start bs h
    exact (chunkBoundsO_chain t size ov fuel start bs h).2

/-- Witness for C10: the contiguity of the windows applied at a concrete text
and concrete parameters. -/
theorem c10_witness :
    chunkBoundsO "ab".toList 5 0 2 0 = some [(0, 2)]
    ∧ List.Chain' (fun a b : Nat × Nat => b.1 = a.2) [(0, 2)] :=
  ⟨by decide, c10_theorem.2.2 ("ab".toList) 5 0 2 0 [(0, 2)] (by decide)⟩
